import Mathlib

/-!
Verification of the UnrealClaudeFileHelper code-search service.

This file shallowly embeds the parts of the repository that the claims
C1..C10 are about:

* `src/src/service/trigram.js` — trigram extraction and pattern→trigram
  reduction (claims C1, C2, C3, C10);
* `src/src/indexer.js` — fuzzy name scoring and the children BFS
  (claims C4, C9);
* `src/src/service/scoring.js` — result scoring and deduplication
  (claim C5);
* the `/batch` and `/health` service behaviour (claims C6, C7), modelled
  from the spec because the handler code is absent from the sources.

JavaScript strings are modelled as lists of UTF-16 code units
(`List Nat`, each element < 2^16); JS numbers appearing in scores are
modelled as rationals; the 32-bit signed results of JS bitwise operators
are modelled as integers via `toInt32`; a JS `Set` is modelled as an
insertion-ordered duplicate-free list (`setAdd`).
-/

namespace UnrealIndex

/-- Model of one UTF-16 code unit of `String.prototype.toLowerCase`.
ASCII upper-case letters are mapped to lower-case; every other unit is kept.
This agrees with JS for ASCII text and for characters without a Unicode
lower-case mapping (such as the euro sign used in counterexamples). -/
def jsLowerUnit (c : Nat) : Nat := if 65 ≤ c ∧ c ≤ 90 then c + 32 else c

/-- Interpretation of a 32-bit pattern as a JS signed 32-bit integer. -/
def toInt32 (v : Nat) : Int :=
  if v % 4294967296 < 2147483648 then ((v % 4294967296 : Nat) : Int)
  else ((v % 4294967296 : Nat) : Int) - 4294967296

/-- Embedding of `encodeTrigram(c1, c2, c3)` from `trigram.js`:
the JS expression `(c1 << 16) | (c2 << 8) | c3` over 32-bit integers. -/
def encodeTrigram (c1 c2 c3 : Nat) : Int :=
  toInt32 (Nat.lor (Nat.lor (c1 <<< 16) (c2 <<< 8)) c3)

/-- All windows of three consecutive code units, in order; mirrors the
`for (let i = 0; i < lower.length - 2; i++)` loop of `extractTrigrams`. -/
def triWindows : List Nat → List (Nat × Nat × Nat)
  | c1 :: c2 :: c3 :: rest => (c1, c2, c3) :: triWindows (c2 :: c3 :: rest)
  | _ => []

/-- A code unit allowed inside a trigram: not newline (10), not carriage
return (13), and not NUL (0); mirrors the skip tests in `extractTrigrams`. -/
def allowedUnit (c : Nat) : Bool := c != 10 && c != 13 && c != 0

/-- Model of `Set.prototype.add`: append the element unless present.
A JS `Set` is an insertion-ordered collection of distinct values. -/
def setAdd (s : List Int) (x : Int) : List Int := if s.contains x then s else s ++ [x]

/-- Embedding of `extractTrigrams(content)` from `trigram.js`: lower-case
the content, take every window of three consecutive units, drop windows
containing a forbidden unit, and add the encoded values to a set. -/
def extractTrigrams (content : List Nat) : List Int :=
  (((triWindows (content.map jsLowerUnit)).filter
      (fun w => allowedUnit w.1 && allowedUnit w.2.1 && allowedUnit w.2.2)).map
    (fun w => encodeTrigram w.1 w.2.1 w.2.2)).foldl setAdd []

/-- Code units of a Lean string literal; exact for strings whose characters
are in the basic multilingual plane, which covers every input used here. -/
def s2u (s : String) : List Nat := s.data.map Char.toNat

/-- State-machine core of `splitTopLevelAlternation(pattern)` from
`trigram.js`: walk the pattern keeping the accumulated branch, the group
depth (an integer, since unmatched closing parentheses drive it negative)
and the character-class flag; a pipe at depth zero outside a class ends
the current branch. The JS escape branch appends the backslash and the
following unit in one step; here the backslash sets the `esc` flag and
the following unit is appended uninterpreted on the next step, which
yields the same branches (a trailing backslash is appended either way,
matching the JS fall-through when no unit follows). -/
def splitAltGo : List Nat → List Nat → Int → Bool → Bool → List (List Nat)
  | [], current, _, _, _ => [current]
  | ch :: rest, current, depth, inClass, esc =>
      if esc then splitAltGo rest (current ++ [ch]) depth inClass false
      else if ch = 92 then splitAltGo rest (current ++ [ch]) depth inClass true
      else if inClass then splitAltGo rest (current ++ [ch]) depth (ch != 93) false
      else if ch = 91 then splitAltGo rest (current ++ [ch]) depth true false
      else if ch = 40 then splitAltGo rest (current ++ [ch]) (depth + 1) inClass false
      else if ch = 41 then splitAltGo rest (current ++ [ch]) (depth - 1) inClass false
      else if ch = 124 ∧ depth = 0 then current :: splitAltGo rest [] depth inClass false
      else splitAltGo rest (current ++ [ch]) depth inClass false

/-- Embedding of `splitTopLevelAlternation(pattern)` from `trigram.js`. -/
def splitTopLevelAlternation (pattern : List Nat) : List (List Nat) :=
  splitAltGo pattern [] 0 false false

/-- Scanner deciding whether the pattern contains an un-escaped pipe at
group depth zero outside a character class — the same state machine as
`splitTopLevelAlternation`, returning only whether a split would occur. -/
def hasPipeGo : List Nat → Int → Bool → Bool → Bool
  | [], _, _, _ => false
  | ch :: rest, depth, inClass, esc =>
      if esc then hasPipeGo rest depth inClass false
      else if ch = 92 then hasPipeGo rest depth inClass true
      else if inClass then hasPipeGo rest depth (ch != 93) false
      else if ch = 91 then hasPipeGo rest depth true false
      else if ch = 40 then hasPipeGo rest (depth + 1) inClass false
      else if ch = 41 then hasPipeGo rest (depth - 1) inClass false
      else if ch = 124 ∧ depth = 0 then true
      else hasPipeGo rest depth inClass false

/-- Whether a top-level un-escaped pipe occurs in the pattern. -/
def hasTopLevelPipe (pattern : List Nat) : Bool := hasPipeGo pattern 0 false false

/-- JS `parts.join('|')` for the branch list (124 is the pipe unit). -/
def joinPipe : List (List Nat) → List Nat
  | [] => []
  | [b] => b
  | b :: c :: rest => b ++ 124 :: joinPipe (c :: rest)

/-- Embedding of `isAlpha(ch)` from `trigram.js`. -/
def isAlphaCode (c : Nat) : Bool := (97 ≤ c && c ≤ 122) || (65 ≤ c && c ≤ 90)

/-- Code units of the escape set `'.()[]{}*+?|^$'` of
`extractLiteralsFromBranch`. -/
def escLiteralCodes : List Nat := [46, 40, 41, 91, 93, 123, 125, 42, 43, 63, 124, 94, 36]

/-- Code units of the metacharacter set `'.+*?{^$'` that break a literal
run in `extractLiteralsFromBranch`. -/
def branchMetaCodes : List Nat := [46, 43, 42, 63, 123, 94, 36]

/-- Embedding of `flushFragment(str, fragments)` from `trigram.js`:
a literal run is kept only when it has at least three units. -/
def flushFragment (current : List Nat) (fragments : List (List Nat)) : List (List Nat) :=
  if 3 ≤ current.length then fragments ++ [current] else fragments

/-- Scanner state for `extractLiteralsFromBranch`. The index-walking JS
loop with its inner skip loops is re-expressed as a one-unit-per-step
state machine; each state names a position of the JS cursor:
`normal` is the top of the walk loop; `escaped` is just after a
backslash; `classStart` just after an opening bracket (a caret may
follow); `classFirst` just after the optional caret (an immediate
closing bracket is a literal member); `classBody` is the
skip-until-closing-bracket loop; `braceBody` the skip-until-closing-brace
loop; `groupStart` just after an opening parenthesis (a question mark may
follow); `groupHead` the skip loop of non-capturing group syntax. -/
inductive LMode where
  | normal | escaped | classStart | classFirst | classBody | braceBody | groupStart | groupHead
deriving DecidableEq

/-- The transition of `extractLiteralsFromBranch` for one unit read at
the top of the walk loop (state `LMode.normal`): a backslash defers to
the escape handling; bracket, parentheses and metacharacter units break
the current literal run; any other unit extends it. -/
def normalStep (u : Nat) (current : List Nat) (frags : List (List Nat)) :
    LMode × List Nat × List (List Nat) :=
  if u = 92 then (.escaped, current, frags)
  else if u = 91 then (.classStart, [], flushFragment current frags)
  else if u = 40 then (.groupStart, [], flushFragment current frags)
  else if u = 41 then (.normal, [], flushFragment current frags)
  else if branchMetaCodes.contains u then
    (if u = 123 then .braceBody else .normal, [], flushFragment current frags)
  else (.normal, current ++ [u], frags)

/-- One transition of the `extractLiteralsFromBranch` scanner. In state
`groupStart` a unit other than a question mark, and in state `groupHead`
a closing parenthesis or a letter, are re-processed by the top of the JS
walk loop, hence the calls to `normalStep` there. -/
def litStep : LMode → Nat → List Nat → List (List Nat) → LMode × List Nat × List (List Nat)
  | .normal, u, current, frags => normalStep u current frags
  | .escaped, u, current, frags =>
      if escLiteralCodes.contains u then (.normal, current ++ [u], frags)
      else (.normal, [], flushFragment current frags)
  | .classStart, u, current, frags =>
      (if u = 94 then .classFirst else .classBody, current, frags)
  | .classFirst, _, current, frags => (.classBody, current, frags)
  | .classBody, u, current, frags => (if u = 93 then .normal else .classBody, current, frags)
  | .braceBody, u, current, frags => (if u = 125 then .normal else .braceBody, current, frags)
  | .groupStart, u, current, frags =>
      if u = 63 then (.groupHead, current, frags) else normalStep u current frags
  | .groupHead, u, current, frags =>
      if u = 58 then (.normal, current, frags)
      else if u = 41 ∨ isAlphaCode u then normalStep u current frags
      else (.groupHead, current, frags)

/-- Run the `extractLiteralsFromBranch` scanner over the pattern. At the
end of the input the pending literal run is flushed; a trailing backslash
is a regular character in the JS walk (the escape case requires a
following unit), so it is appended before the final flush. -/
def litScan : List Nat → LMode → List Nat → List (List Nat) → List (List Nat)
  | [], mode, current, frags =>
      if mode = .escaped then flushFragment (current ++ [92]) frags
      else flushFragment current frags
  | u :: rest, mode, current, frags =>
      let s := litStep mode u current frags
      litScan rest s.1 s.2.1 s.2.2

/-- Embedding of `extractLiteralsFromBranch(pattern)` from `trigram.js`. -/
def extractLiteralsFromBranch (pattern : List Nat) : List (List Nat) :=
  litScan pattern .normal [] []

/-- Embedding of `extractLiteralsFromRegex(pattern)` from `trigram.js`. -/
def extractLiteralsFromRegex (pattern : List Nat) : List (List Nat) :=
  if 1 < (splitTopLevelAlternation pattern).length then []
  else extractLiteralsFromBranch pattern

/-- Union of the trigrams of a list of literal fragments (the nested
`for` loops building a `Set` in `patternToTrigrams`). -/
def unionTrigrams (lits : List (List Nat)) : List Int :=
  lits.foldl (fun acc lit => (extractTrigrams lit).foldl setAdd acc) []

/-- The trigram set one alternation branch contributes in
`patternToTrigrams`: the union of the trigrams of its literal fragments
(empty when the branch has no usable fragment). -/
def branchTrigramSet (branch : List Nat) : List Int :=
  unionTrigrams (extractLiteralsFromBranch branch)

/-- Left fold intersection of a list of sets, mirroring the
`common = new Set([...common].filter(t => sets[i].has(t)))` loop of
`patternToTrigrams`. -/
def interList : List (List Int) → List Int
  | [] => []
  | s :: rest => rest.foldl (fun acc t => acc.filter (fun x => t.contains x)) s

/-- Embedding of `patternToTrigrams(pattern, isRegex)` from `trigram.js`. -/
def patternToTrigrams (pattern : List Nat) (isRegex : Bool) : List Int :=
  if !isRegex then extractTrigrams pattern
  else
    let alternatives := splitTopLevelAlternation pattern
    if 1 < alternatives.length then
      let branchSets := alternatives.map branchTrigramSet
      if branchSets.any (fun s => s.isEmpty) then []
      else interList branchSets
    else
      let literals := extractLiteralsFromRegex pattern
      if literals.isEmpty then [] else unionTrigrams literals

example : (extractTrigrams (s2u "abcde")).length = 3 := by decide
example : (extractTrigrams (s2u "ab\ncd")).length = 0 := by decide
example : extractTrigrams (s2u "ABC") = extractTrigrams (s2u "abc") := by decide
example : (patternToTrigrams (s2u "DestroyActor") false).length = 10 := by decide
example : (patternToTrigrams (s2u "abc[xyz]def") true).length = 2 := by decide
example : patternToTrigrams (s2u "a|b") true = [] := by decide
example : (patternToTrigrams (s2u "foo\\.bar") true).length = 5 := by decide
example : patternToTrigrams (s2u ".*") true = [] := by decide
example : (patternToTrigrams (s2u "UPROPERTY.*EditAnywhere") true).length > 0 := by decide
example : (patternToTrigrams (s2u "DestroyActor|DestroyPawn") true).length > 0 := by decide
example : encodeTrigram 97 98 99 ∈ patternToTrigrams (s2u "(abc)?def") true := by decide

/-! Membership lemmas for the `Set` model. -/

theorem intList_contains_iff {l : List Int} {a : Int} : l.contains a = true ↔ a ∈ l := by
  simp [List.elem_iff]

theorem mem_setAdd {s : List Int} {x a : Int} : a ∈ setAdd s x ↔ a ∈ s ∨ a = x := by
  unfold setAdd
  split
  · rename_i hc
    constructor
    · exact fun h => Or.inl h
    · rintro (h | rfl)
      · exact h
      · exact intList_contains_iff.mp hc
  · simp

theorem mem_foldl_setAdd (l : List Int) (init : List Int) (a : Int) :
    a ∈ l.foldl setAdd init ↔ a ∈ init ∨ a ∈ l := by
  induction l generalizing init with
  | nil => simp
  | cons x rest ih =>
    simp only [List.foldl_cons, ih, mem_setAdd, List.mem_cons]
    tauto

theorem mem_foldl_interFilter (rest : List (List Int)) (acc : List Int) (t : Int) :
    t ∈ rest.foldl (fun acc s => acc.filter (fun x => s.contains x)) acc ↔
      t ∈ acc ∧ ∀ s ∈ rest, t ∈ s := by
  induction rest generalizing acc with
  | nil => simp
  | cons s rest2 ih =>
    simp only [List.foldl_cons, ih, List.mem_filter, intList_contains_iff, List.mem_cons]
    constructor
    · rintro ⟨⟨ha, hs⟩, hrest⟩
      exact ⟨ha, fun u hu => by rcases hu with rfl | hu; exact hs; exact hrest u hu⟩
    · rintro ⟨ha, hall⟩
      exact ⟨⟨ha, hall s (Or.inl rfl)⟩, fun u hu => hall u (Or.inr hu)⟩

theorem mem_extractTrigrams (content : List Nat) (t : Int) :
    t ∈ extractTrigrams content ↔
      ∃ w ∈ (triWindows (content.map jsLowerUnit)).filter
          (fun w => allowedUnit w.1 && allowedUnit w.2.1 && allowedUnit w.2.2),
        t = encodeTrigram w.1 w.2.1 w.2.2 := by
  unfold extractTrigrams
  rw [mem_foldl_setAdd]
  simp only [List.not_mem_nil, false_or, List.mem_map]
  constructor
  · rintro ⟨w, hw, rfl⟩; exact ⟨w, hw, rfl⟩
  · rintro ⟨w, hw, rfl⟩; exact ⟨w, hw, rfl⟩

theorem triWindows_mem :
    ∀ (l : List Nat) (w : Nat × Nat × Nat), w ∈ triWindows l →
      w.1 ∈ l ∧ w.2.1 ∈ l ∧ w.2.2 ∈ l := by
  intro l
  induction l with
  | nil => intro w h; simp [triWindows] at h
  | cons c1 rest ih =>
    intro w h
    cases rest with
    | nil => simp [triWindows] at h
    | cons c2 rest2 =>
      cases rest2 with
      | nil => simp [triWindows] at h
      | cons c3 rest3 =>
        rw [triWindows] at h
        rcases List.mem_cons.mp h with h1 | h2
        · subst h1
          refine ⟨List.mem_cons_self _ _, ?_, ?_⟩ <;> simp
        · obtain ⟨ha, hb, hc⟩ := ih w h2
          exact ⟨List.mem_cons_of_mem _ ha, List.mem_cons_of_mem _ hb,
            List.mem_cons_of_mem _ hc⟩

theorem jsLowerUnit_lt_256 {c : Nat} (h : c < 256) : jsLowerUnit c < 256 := by
  unfold jsLowerUnit
  split <;> omega

theorem encodeTrigram_bounds {c1 c2 c3 : Nat} (h1 : c1 < 256) (h2 : c2 < 256) (h3 : c3 < 256) :
    0 ≤ encodeTrigram c1 c2 c3 ∧ encodeTrigram c1 c2 c3 < 16777216 := by
  have e1 : c1 <<< 16 < 2 ^ 24 := by
    rw [Nat.shiftLeft_eq]
    have h16 : (2 : Nat) ^ 16 = 65536 := by norm_num
    have hp24 : (2 : Nat) ^ 24 = 16777216 := by norm_num
    rw [h16, hp24]
    omega
  have e2 : c2 <<< 8 < 2 ^ 24 := by
    rw [Nat.shiftLeft_eq]
    have h8 : (2 : Nat) ^ 8 = 256 := by norm_num
    have hp24 : (2 : Nat) ^ 24 = 16777216 := by norm_num
    rw [h8, hp24]
    omega
  have e3 : c3 < 2 ^ 24 := lt_trans h3 (by norm_num)
  have hlor : Nat.lor (Nat.lor (c1 <<< 16) (c2 <<< 8)) c3 < 2 ^ 24 :=
    Nat.bitwise_lt (Nat.bitwise_lt e1 e2) e3
  have h24 : (2 : Nat) ^ 24 = 16777216 := by norm_num
  rw [h24] at hlor
  unfold encodeTrigram toInt32
  rw [Nat.mod_eq_of_lt (by omega)]
  rw [if_pos (by omega)]
  exact ⟨Int.ofNat_nonneg _, by exact_mod_cast hlor⟩

/-! Minimal regular-expression semantics used to state trigram soundness:
`REMatch r s` holds when the string `s` is in the language of `r`, and
`jsTestMatch r s` is JS `regex.test(s)` for an unanchored regex — some
substring of `s` is in the language. -/

/-- Abstract syntax of the regex fragment needed here: empty string,
single unit, concatenation and alternation. -/
inductive RE where
  | eps : RE
  | lit : Nat → RE
  | cat : RE → RE → RE
  | alt : RE → RE → RE

/-- Language membership for `RE`. -/
inductive REMatch : RE → List Nat → Prop where
  | eps : REMatch .eps []
  | lit (c : Nat) : REMatch (.lit c) [c]
  | cat {r1 r2 s1 s2} : REMatch r1 s1 → REMatch r2 s2 → REMatch (.cat r1 r2) (s1 ++ s2)
  | altL {r1 r2 s} : REMatch r1 s → REMatch (.alt r1 r2) s
  | altR {r1 r2 s} : REMatch r2 s → REMatch (.alt r1 r2) s

/-- The regex matching exactly one given literal string. -/
def reStr : List Nat → RE
  | [] => .eps
  | c :: rest => .cat (.lit c) (reStr rest)

theorem reStr_matches (s : List Nat) : REMatch (reStr s) s := by
  induction s with
  | nil => exact REMatch.eps
  | cons c rest ih => exact (REMatch.cat (REMatch.lit c) ih : REMatch _ ([c] ++ rest))

/-- JS `regex.test`: an unanchored regex matches a string when some
substring is in its language. -/
def jsTestMatch (r : RE) (s : List Nat) : Prop :=
  ∃ pre mid post, s = pre ++ mid ++ post ∧ REMatch r mid

/-- The abstract syntax of the regex pattern `(abc)?def`: an optional
group (alternation with the empty string) followed by the literal `def`. -/
def regexOptAbcDef : RE := .cat (.alt (reStr (s2u "abc")) .eps) (reStr (s2u "def"))

/-- C1. The claim states trigram soundness: every trigram required by
`patternToTrigrams(P, true)` appears in every string matching `P`, in
particular for optional groups such as `(abc)?def`. The code violates
this (and its own doc comment, which promises trigrams that ANY matching
string must contain): `extractLiteralsFromBranch` keeps the literal `abc`
of the optional group `(abc)?` as a required fragment, so the required
set for `(abc)?def` contains the trigram `abc`; yet `def` matches the
pattern and contains no such trigram. -/
theorem trigram_soundness_violated_for_optional_group :
    jsTestMatch regexOptAbcDef (s2u "def")
    ∧ encodeTrigram 97 98 99 ∈ patternToTrigrams (s2u "(abc)?def") true
    ∧ encodeTrigram 97 98 99 ∉ extractTrigrams (s2u "def") := by
  refine ⟨⟨[], s2u "def", [], by simp, ?_⟩, by decide, by decide⟩
  have h1 : REMatch (RE.alt (reStr (s2u "abc")) RE.eps) [] := REMatch.altR REMatch.eps
  have h2 := reStr_matches (s2u "def")
  exact (REMatch.cat h1 h2 : REMatch _ ([] ++ s2u "def"))

/-- Unfolding of `patternToTrigrams` at `isRegex = true`. -/
theorem patternToTrigrams_true_eq (p : List Nat) :
    patternToTrigrams p true =
      (if 1 < (splitTopLevelAlternation p).length then
        (if ((splitTopLevelAlternation p).map branchTrigramSet).any (fun s => s.isEmpty)
         then []
         else interList ((splitTopLevelAlternation p).map branchTrigramSet))
       else if (extractLiteralsFromRegex p).isEmpty then []
            else unionTrigrams (extractLiteralsFromRegex p)) := rfl

/-- C2. Alternation handling of `patternToTrigrams`: with more than one
top-level branch, if some branch's literal-fragment trigram set is empty
the result is empty; otherwise a trigram is required exactly when every
branch requires it (the intersection of the per-branch sets). The two
concrete examples of the claim are included: `a|b` is unindexable and
`DestroyActor|DestroyPawn` is not. -/
theorem patternToTrigrams_alternation_intersection :
    (∀ p : List Nat, 1 < (splitTopLevelAlternation p).length →
      ((∃ b ∈ splitTopLevelAlternation p, branchTrigramSet b = []) →
          patternToTrigrams p true = [])
      ∧ ((∀ b ∈ splitTopLevelAlternation p, branchTrigramSet b ≠ []) →
          ∀ t : Int, t ∈ patternToTrigrams p true ↔
            ∀ b ∈ splitTopLevelAlternation p, t ∈ branchTrigramSet b))
    ∧ patternToTrigrams (s2u "a|b") true = []
    ∧ patternToTrigrams (s2u "DestroyActor|DestroyPawn") true ≠ [] := by
  refine ⟨?_, by decide, by decide⟩
  intro p hp
  constructor
  · rintro ⟨b, hb, hempty⟩
    rw [patternToTrigrams_true_eq, if_pos hp, if_pos]
    rw [List.any_eq_true]
    exact ⟨branchTrigramSet b, List.mem_map_of_mem _ hb, by simp [hempty]⟩
  · intro hall t
    rw [patternToTrigrams_true_eq, if_pos hp, if_neg]
    · cases hsets : (splitTopLevelAlternation p).map branchTrigramSet with
      | nil =>
        exfalso
        have hd : splitTopLevelAlternation p = [] := List.map_eq_nil_iff.mp hsets
        rw [hd] at hp
        simp at hp
      | cons s rest =>
        unfold interList
        rw [mem_foldl_interFilter]
        have hmem : ∀ u : List Int, u ∈ s :: rest ↔
            ∃ b ∈ splitTopLevelAlternation p, branchTrigramSet b = u := by
          intro u
          rw [← hsets, List.mem_map]
        constructor
        · rintro ⟨hs, hrest⟩ b hb
          have hmem2 := (hmem (branchTrigramSet b)).mpr ⟨b, hb, rfl⟩
          rcases List.mem_cons.mp hmem2 with h | h
          · rw [h]; exact hs
          · exact hrest _ h
        · intro h
          have hs : t ∈ s := by
            rcases (hmem s).mp (List.mem_cons_self _ _) with ⟨b, hb, rfl⟩
            exact h b hb
          refine ⟨hs, fun u hu => ?_⟩
          rcases (hmem u).mp (List.mem_cons_of_mem _ hu) with ⟨b, hb, rfl⟩
          exact h b hb
    · rw [Bool.not_eq_true, List.any_eq_false]
      intro u hu
      rcases List.mem_map.mp hu with ⟨b, hb, rfl⟩
      simpa [List.isEmpty_iff] using hall b hb

/-- Witness for C2 at the concrete pattern `a|b`: the branch `a` has an
empty trigram set, so the whole pattern is unindexable. -/
theorem patternToTrigrams_alternation_intersection_witness :
    1 < (splitTopLevelAlternation (s2u "a|b")).length
    ∧ patternToTrigrams (s2u "a|b") true = [] :=
  ⟨by decide,
    (patternToTrigrams_alternation_intersection.1 (s2u "a|b") (by decide)).1
      ⟨[97], by decide, by decide⟩⟩

/-- C3 (amended). Every trigram returned by `extractTrigrams` is the
encoding `(c1<<16)|(c2<<8)|c3` of three consecutive units of the
lowercased input, none of which is newline, carriage return or NUL; and
whenever all code units of the input are below 256 (in particular for
ASCII input), every returned trigram lies in `[0, 2^24)`. The 24-bit
bound does not extend to arbitrary input (see the counterexample). -/
theorem extractTrigrams_form_and_bound (content : List Nat) :
    (∀ t ∈ extractTrigrams content,
      ∃ w ∈ triWindows (content.map jsLowerUnit),
        t = encodeTrigram w.1 w.2.1 w.2.2
        ∧ allowedUnit w.1 = true ∧ allowedUnit w.2.1 = true ∧ allowedUnit w.2.2 = true)
    ∧ ((∀ c ∈ content, c < 256) →
        ∀ t ∈ extractTrigrams content, 0 ≤ t ∧ t < 16777216) := by
  constructor
  · intro t ht
    rcases (mem_extractTrigrams content t).mp ht with ⟨w, hw, rfl⟩
    rcases List.mem_filter.mp hw with ⟨hwin, hallow⟩
    refine ⟨w, hwin, rfl, ?_, ?_, ?_⟩ <;>
      · simp only [Bool.and_eq_true] at hallow
        tauto
  · intro hsmall t ht
    rcases (mem_extractTrigrams content t).mp ht with ⟨w, hw, rfl⟩
    rcases List.mem_filter.mp hw with ⟨hwin, _⟩
    obtain ⟨h1, h2, h3⟩ := triWindows_mem _ w hwin
    have hb : ∀ c ∈ content.map jsLowerUnit, c < 256 := by
      intro c hc
      rcases List.mem_map.mp hc with ⟨c0, hc0, rfl⟩
      exact jsLowerUnit_lt_256 (hsmall c0 hc0)
    exact encodeTrigram_bounds (hb _ h1) (hb _ h2) (hb _ h3)

/-- Witness for C3 at the ASCII input `abc`. -/
theorem extractTrigrams_form_and_bound_witness :
    (∀ c ∈ s2u "abc", c < 256)
    ∧ (∀ t ∈ extractTrigrams (s2u "abc"), 0 ≤ t ∧ t < 16777216) :=
  ⟨by decide, (extractTrigrams_form_and_bound (s2u "abc")).2 (by decide)⟩

/-- Counterexample for C3 as stated: on the non-ASCII input `€€€`
(UTF-16 code unit 8364 three times, a character with no lower-case
mapping) the returned trigram is at least 2^24, because the code unit
does not fit in one byte and the shifted fields overlap. -/
theorem extractTrigrams_nonAscii_counterexample :
    encodeTrigram 8364 8364 8364 ∈ extractTrigrams (s2u "€€€")
    ∧ ¬(encodeTrigram 8364 8364 8364 < 16777216) := by
  constructor
  · decide
  · decide

/-! Lemmas for the alternation splitter (claim C10). -/

theorem joinPipe_cons (b : List Nat) (rest : List (List Nat)) (h : rest ≠ []) :
    joinPipe (b :: rest) = b ++ 124 :: joinPipe rest := by
  cases rest with
  | nil => exact absurd rfl h
  | cons c cs => rfl

theorem splitAltGo_ne_nil :
    ∀ (l cur : List Nat) (d : Int) (ic esc : Bool), splitAltGo l cur d ic esc ≠ [] := by
  intro l
  induction l with
  | nil => intro cur d ic esc; simp [splitAltGo]
  | cons ch rest ih =>
    intro cur d ic esc
    simp only [splitAltGo]
    split_ifs <;> first | exact ih _ _ _ _ | simp

theorem splitAltGo_join :
    ∀ (l cur : List Nat) (d : Int) (ic esc : Bool),
      joinPipe (splitAltGo l cur d ic esc) = cur ++ l := by
  intro l
  induction l with
  | nil => intro cur d ic esc; simp [splitAltGo, joinPipe]
  | cons ch rest ih =>
    intro cur d ic esc
    simp only [splitAltGo]
    split_ifs with h1 h2 h3 h4 h5 h6 h7
    · rw [ih]; simp
    · rw [ih]; simp
    · rw [ih]; simp
    · rw [ih]; simp
    · rw [ih]; simp
    · rw [ih]; simp
    · rw [joinPipe_cons _ _ (splitAltGo_ne_nil rest [] d ic false), ih]
      obtain ⟨h124, _⟩ := h7
      subst h124
      simp
    · rw [ih]; simp

theorem splitAltGo_noPipe :
    ∀ (l cur : List Nat) (d : Int) (ic esc : Bool),
      hasPipeGo l d ic esc = false → splitAltGo l cur d ic esc = [cur ++ l] := by
  intro l
  induction l with
  | nil => intro cur d ic esc _; simp [splitAltGo]
  | cons ch rest ih =>
    intro cur d ic esc hp
    simp only [hasPipeGo] at hp
    simp only [splitAltGo]
    split_ifs at hp ⊢ with h1 h2 h3 h4 h5 h6 h7
    all_goals (rw [ih _ _ _ _ hp]; simp)

/-- C10. Round trip of the alternation splitter: joining the branch list
returned by `splitTopLevelAlternation` with the pipe unit reconstructs
the pattern exactly; and a pattern with no un-escaped pipe at group depth
zero outside a character class (as tracked by the splitter's own state
machine) splits into the single-element list holding the whole pattern. -/
theorem splitTopLevelAlternation_join_roundtrip :
    (∀ p : List Nat, joinPipe (splitTopLevelAlternation p) = p)
    ∧ (∀ p : List Nat, hasTopLevelPipe p = false → splitTopLevelAlternation p = [p]) := by
  constructor
  · intro p
    have h := splitAltGo_join p [] 0 false false
    simpa [splitTopLevelAlternation] using h
  · intro p hp
    have h := splitAltGo_noPipe p [] 0 false false hp
    simpa [splitTopLevelAlternation] using h

/-- Witness for C10 at the pattern `abc(x|y)`, whose only pipe sits at
group depth one and therefore does not split. -/
theorem splitTopLevelAlternation_join_roundtrip_witness :
    hasTopLevelPipe (s2u "abc(x|y)") = false
    ∧ splitTopLevelAlternation (s2u "abc(x|y)") = [s2u "abc(x|y)"] :=
  ⟨by decide, splitTopLevelAlternation_join_roundtrip.2 (s2u "abc(x|y)") (by decide)⟩

/-! Embedding of `fuzzyMatch` and `levenshteinDistance` from
`src/src/indexer.js` (claim C4). JS floating-point scores are modelled
as rationals; every concrete comparison exercised here is exact in both
arithmetics. -/

/-- JS `toLowerCase` over a whole string, unit by unit. -/
def jsLowerStr (s : List Nat) : List Nat := s.map jsLowerUnit

/-- JS `String.prototype.indexOf`: the first position where the pattern
occurs as a contiguous substring, if any. -/
def jsIndexOf : List Nat → List Nat → Option Nat
  | [], pat => if pat.isPrefixOf ([] : List Nat) then some 0 else none
  | h :: t, pat =>
      if pat.isPrefixOf (h :: t) then some 0
      else (jsIndexOf t pat).map (fun i => i + 1)

/-- Inner-cell walk of one row of the `levenshteinDistance` dynamic
program: `bc` is the current unit of `b`, the first list walks the units
of `a`, the second list is the suffix of the previous row starting at the
diagonal cell, and `left` is the cell just written in this row. -/
def levRowGo (bc : Nat) : List Nat → List Nat → Nat → List Nat
  | [], _, _ => []
  | aj :: arest, prevRest, left =>
      match prevRest with
      | [] => []
      | diag :: prevRest2 =>
          let up := prevRest2.headD 0
          let v := if bc = aj then diag else Nat.min (Nat.min diag left) up + 1
          v :: levRowGo bc arest prevRest2 v

/-- One row of the `levenshteinDistance` matrix: the leading cell is the
row index (`matrix[i][0] = i`), the rest is the inner walk. -/
def levNextRow (a : List Nat) (prevRow : List Nat) (bc : Nat) : List Nat :=
  let first := prevRow.headD 0 + 1
  first :: levRowGo bc a prevRow first

/-- Embedding of `levenshteinDistance(a, b)` from `indexer.js`: the row
dynamic program with `matrix[0][j] = j`, answer `matrix[b.length][a.length]`. -/
def levenshteinDistance (a b : List Nat) : Nat :=
  (b.foldl (levNextRow a) (List.range (a.length + 1))).getLastD 0

example : levenshteinDistance (s2u "kitten") (s2u "sitting") = 3 := by decide
example : levenshteinDistance (s2u "abc") (s2u "abc") = 0 := by decide
example : levenshteinDistance (s2u "abc") [] = 3 := by decide

/-- Per-candidate scoring of `fuzzyMatch` from `indexer.js`: equality of
the lowered strings scores 1; a prefix scores 0.9; a substring at
`position` scores `0.7 - (position / candidate.length) * 0.2`; otherwise
the candidate is kept with half its similarity ratio exactly when the
ratio `1 - distance / maxLen` exceeds 0.4 (strictly, per the JS `>`). -/
def scoreOne (query candidate : List Nat) : Option ℚ :=
  let queryLower := jsLowerStr query
  let candidateLower := jsLowerStr candidate
  if candidateLower = queryLower then some 1
  else if queryLower.isPrefixOf candidateLower then some (9/10)
  else match jsIndexOf candidateLower queryLower with
    | some position => some (7/10 - ((position : ℚ) / (candidate.length : ℚ)) * (2/10))
    | none =>
        let distance := levenshteinDistance queryLower candidateLower
        let maxLen := Nat.max query.length candidate.length
        let similarity : ℚ := 1 - (distance : ℚ) / (maxLen : ℚ)
        if 2/5 < similarity then some (similarity * (1/2)) else none

/-- The `scored` array of `fuzzyMatch` before sorting and truncation. -/
def fuzzyScored (query : List Nat) (candidates : List (List Nat)) : List (List Nat × ℚ) :=
  candidates.filterMap (fun c => (scoreOne query c).map (fun s => (c, s)))

/-- Insertion into a descending-sorted list, after all entries scoring at
least as much — the unique stable descending order. -/
def insertScoredDesc {α : Type} (f : α → ℚ) (x : α) : List α → List α
  | [] => [x]
  | y :: ys => if f x ≤ f y then y :: insertScoredDesc f x ys else x :: y :: ys

/-- Stable descending sort by score, modelling the JS stable
`scored.sort((a, b) => b.score - a.score)`. -/
def sortByDesc {α : Type} (f : α → ℚ) (l : List α) : List α :=
  l.foldl (fun acc x => insertScoredDesc f x acc) []

/-- Embedding of `fuzzyMatch(query, candidates, maxResults)` from
`indexer.js`: score, sort descending (stably), truncate. -/
def fuzzyMatch (query : List Nat) (candidates : List (List Nat)) (maxResults : Nat) :
    List (List Nat × ℚ) :=
  (sortByDesc Prod.snd (fuzzyScored query candidates)).take maxResults

theorem mem_fuzzyScored {query c : List Nat} {s : ℚ} {cs : List (List Nat)} :
    (c, s) ∈ fuzzyScored query cs ↔ c ∈ cs ∧ scoreOne query c = some s := by
  unfold fuzzyScored
  rw [List.mem_filterMap]
  constructor
  · rintro ⟨c2, hc2, hopt⟩
    rcases hsc : scoreOne query c2 with _ | v
    · rw [hsc] at hopt; simp at hopt
    · rw [hsc] at hopt
      simp at hopt
      obtain ⟨rfl, rfl⟩ := hopt
      exact ⟨hc2, hsc⟩
  · rintro ⟨hc, hsc⟩
    exact ⟨c, hc, by rw [hsc]; rfl⟩

theorem scoreOne_else_branch (query candidate : List Nat)
    (hne : jsLowerStr candidate ≠ jsLowerStr query)
    (hpre : (jsLowerStr query).isPrefixOf (jsLowerStr candidate) = false)
    (hidx : jsIndexOf (jsLowerStr candidate) (jsLowerStr query) = none) :
    scoreOne query candidate =
      (if (2/5 : ℚ) <
          1 - (levenshteinDistance (jsLowerStr query) (jsLowerStr candidate) : ℚ) /
            ((Nat.max query.length candidate.length : Nat) : ℚ) then
        some ((1 - (levenshteinDistance (jsLowerStr query) (jsLowerStr candidate) : ℚ) /
            ((Nat.max query.length candidate.length : Nat) : ℚ)) * (1/2))
      else none) := by
  have hpre2 : ¬((jsLowerStr query).isPrefixOf (jsLowerStr candidate) = true) := by
    rw [hpre]; exact Bool.false_ne_true
  simp only [scoreOne, if_neg hne, if_neg hpre2, hidx]

/-- C4 (amended). The tiers of `fuzzyMatch` scoring, stated on the scored
list: equal (after lowering) candidates score 1.0; proper-prefix
candidates 0.9; substring candidates `0.7 - (position/length)*0.2`; every
remaining candidate is kept with score `ratio * 0.5` exactly when its
similarity ratio is strictly greater than 0.4 — a candidate whose ratio
is exactly 0.4 is excluded (see the counterexample), which is where the
claim's "at least 0.4" fails. -/
theorem fuzzyMatch_scoring_tiers (query candidate : List Nat) (cs : List (List Nat))
    (hin : candidate ∈ cs) :
    (jsLowerStr candidate = jsLowerStr query →
        (candidate, (1 : ℚ)) ∈ fuzzyScored query cs)
    ∧ (jsLowerStr candidate ≠ jsLowerStr query →
        (jsLowerStr query).isPrefixOf (jsLowerStr candidate) = true →
          (candidate, (9/10 : ℚ)) ∈ fuzzyScored query cs)
    ∧ (∀ position : Nat,
        jsLowerStr candidate ≠ jsLowerStr query →
        (jsLowerStr query).isPrefixOf (jsLowerStr candidate) = false →
        jsIndexOf (jsLowerStr candidate) (jsLowerStr query) = some position →
          (candidate, (7/10 : ℚ) - ((position : ℚ) / (candidate.length : ℚ)) * (2/10))
            ∈ fuzzyScored query cs)
    ∧ (jsLowerStr candidate ≠ jsLowerStr query →
        (jsLowerStr query).isPrefixOf (jsLowerStr candidate) = false →
        jsIndexOf (jsLowerStr candidate) (jsLowerStr query) = none →
          ((2/5 : ℚ) <
              1 - (levenshteinDistance (jsLowerStr query) (jsLowerStr candidate) : ℚ) /
                ((Nat.max query.length candidate.length : Nat) : ℚ) →
            (candidate,
              (1 - (levenshteinDistance (jsLowerStr query) (jsLowerStr candidate) : ℚ) /
                ((Nat.max query.length candidate.length : Nat) : ℚ)) * (1/2))
              ∈ fuzzyScored query cs)
          ∧ (1 - (levenshteinDistance (jsLowerStr query) (jsLowerStr candidate) : ℚ) /
                ((Nat.max query.length candidate.length : Nat) : ℚ) ≤ 2/5 →
              ∀ s : ℚ, (candidate, s) ∉ fuzzyScored query cs)) := by
  refine ⟨?_, ?_, ?_, ?_⟩
  · intro heq
    rw [mem_fuzzyScored]
    exact ⟨hin, by unfold scoreOne; rw [if_pos heq]⟩
  · intro hne hpre
    rw [mem_fuzzyScored]
    refine ⟨hin, ?_⟩
    unfold scoreOne
    rw [if_neg hne, if_pos hpre]
  · intro position hne hpre hidx
    rw [mem_fuzzyScored]
    refine ⟨hin, ?_⟩
    have hpre2 : ¬((jsLowerStr query).isPrefixOf (jsLowerStr candidate) = true) := by
      rw [hpre]; exact Bool.false_ne_true
    simp only [scoreOne, if_neg hne, if_neg hpre2, hidx]
  · intro hne hpre hidx
    have hscore := scoreOne_else_branch query candidate hne hpre hidx
    constructor
    · intro hlt
      rw [mem_fuzzyScored]
      exact ⟨hin, by rw [hscore, if_pos hlt]⟩
    · intro hle s
      rw [mem_fuzzyScored]
      rintro ⟨_, heq⟩
      rw [hscore, if_neg (not_lt.mpr hle)] at heq
      exact Option.noConfusion heq

/-- Witness for C4 at query `actor` and candidate `Actor`: the
case-insensitive equal tier scores 1.0. -/
theorem fuzzyMatch_scoring_tiers_witness :
    s2u "Actor" ∈ [s2u "Actor"]
    ∧ (s2u "Actor", (1 : ℚ)) ∈ fuzzyScored (s2u "actor") [s2u "Actor"] :=
  ⟨by decide,
    (fuzzyMatch_scoring_tiers (s2u "actor") (s2u "Actor") [s2u "Actor"] (by decide)).1
      (by decide)⟩

/-- Counterexample for C4 as stated: query `abcde` and candidate `abxyz`
have levenshtein distance 3 over maximum length 5, a similarity ratio of
exactly 0.4; the claim includes this boundary case, but the code's strict
comparison drops the candidate, so the scored list is empty. -/
theorem fuzzyMatch_boundary_excluded_counterexample :
    levenshteinDistance (jsLowerStr (s2u "abcde")) (jsLowerStr (s2u "abxyz")) = 3
    ∧ (1 - (levenshteinDistance (jsLowerStr (s2u "abcde")) (jsLowerStr (s2u "abxyz")) : ℚ) /
        ((Nat.max (s2u "abcde").length (s2u "abxyz").length : Nat) : ℚ)) = 2/5
    ∧ fuzzyScored (s2u "abcde") [s2u "abxyz"] = []
    ∧ fuzzyMatch (s2u "abcde") [s2u "abxyz"] 20 = [] := by
  have hlev : levenshteinDistance (jsLowerStr (s2u "abcde")) (jsLowerStr (s2u "abxyz")) = 3 := by
    decide
  have hmax : Nat.max (s2u "abcde").length (s2u "abxyz").length = 5 := by decide
  have hsim : (1 - (levenshteinDistance (jsLowerStr (s2u "abcde"))
        (jsLowerStr (s2u "abxyz")) : ℚ) /
      ((Nat.max (s2u "abcde").length (s2u "abxyz").length : Nat) : ℚ)) = 2/5 := by
    rw [hlev, hmax]
    norm_num
  have hnone : scoreOne (s2u "abcde") (s2u "abxyz") = none := by
    rw [scoreOne_else_branch _ _ (by decide) (by decide) (by decide), if_neg]
    rw [hsim]
    norm_num
  have hscored : fuzzyScored (s2u "abcde") [s2u "abxyz"] = [] := by
    simp [fuzzyScored, hnone]
  refine ⟨hlev, hsim, hscored, ?_⟩
  simp [fuzzyMatch, hscored, sortByDesc]

/-! Embedding of `src/src/service/scoring.js` (claim C5): `scoreEntry`
and `dedupTypes`. Paths, names and kinds are lists of characters; a JS
`null`/empty field is the empty list (both are falsy in the JS tests). -/

/-- Characters of a Lean string literal. -/
def sc (s : String) : List Char := s.data

/-- A `/find-type` result record as consumed by `scoreEntry` and
`dedupTypes`: name, kind, file path, parent-type name (empty when
absent), and the attached implementation path if any. -/
structure TypeRec where
  name : List Char
  kind : List Char
  path : List Char
  parent : List Char
  implementationPath : Option (List Char)
deriving DecidableEq

/-- JS `String.prototype.includes` on character lists. -/
def containsSub : List Char → List Char → Bool
  | [], pat => pat.isPrefixOf ([] : List Char)
  | h :: t, pat => pat.isPrefixOf (h :: t) || containsSub t pat

/-- The `p = r.path.replace(/\\/g, '/')` normalisation of `scoreEntry`. -/
def normSlash (p : List Char) : List Char :=
  p.map (fun c => if c = '\\' then '/' else c)

/-- The path-signal part of `scoreEntry(r)` (the body of its
`if (r.path)` block): directory markers plus the length penalty
`Math.max(0, 0.5 - p.length * 0.004)`. -/
def pathSignal (p : List Char) : ℚ :=
  (if containsSub p (sc "/Runtime/") then 2
   else if containsSub p (sc "/Developer/") then 1 else 0)
  + (if containsSub p (sc "/Public/") || containsSub p (sc "/Classes/") then 3/2
     else if containsSub p (sc "/Private/") then 1/2 else 0)
  + max 0 (1/2 - (p.length : ℚ) * (1/250))

/-- Embedding of `scoreEntry(r)` from `scoring.js`: 10 for a parent, 5
for a path ending in `.h` (checked on the raw path), plus the path
signal on the slash-normalised path. -/
def scoreEntry (r : TypeRec) : ℚ :=
  (if r.parent ≠ [] then 10 else 0)
  + (if r.path ≠ [] ∧ (sc ".h").isSuffixOf r.path = true then 5 else 0)
  + (if r.path ≠ [] then pathSignal (normSlash r.path) else 0)

/-- The `${r.name}:${r.kind}` map key of `dedupTypes`. -/
def typeKey (r : TypeRec) : List Char := r.name ++ sc ":" ++ r.kind

/-- JS `Map.prototype.get` over an insertion-ordered association list. -/
def mapLookup (best : List (List Char × TypeRec)) (key : List Char) : Option TypeRec :=
  (best.find? (fun e => e.1 == key)).map Prod.snd

/-- JS `Map.prototype.set`: overwrite in place when the key exists
(keeping its position), append otherwise. -/
def mapSet (best : List (List Char × TypeRec)) (key : List Char) (v : TypeRec) :
    List (List Char × TypeRec) :=
  if (best.find? (fun e => e.1 == key)).isSome then
    best.map (fun e => if e.1 == key then (key, v) else e)
  else best ++ [(key, v)]

/-- The duplicate-resolution step of `dedupTypes`: the higher-scored
record is kept; when the discarded record's path ends in `.cpp` it is
attached to the kept record as `implementationPath` (ties keep the
existing record, since the JS test is a strict `newScore > existingScore`). -/
def mergeDup (existing r : TypeRec) : TypeRec :=
  if scoreEntry existing < scoreEntry r then
    (if existing.path ≠ [] ∧ (sc ".cpp").isSuffixOf existing.path = true then
      { r with implementationPath := some existing.path } else r)
  else
    (if r.path ≠ [] ∧ (sc ".cpp").isSuffixOf r.path = true then
      { existing with implementationPath := some r.path } else existing)

/-- The `for (const r of results)` loop of `dedupTypes` over the `best`
map. -/
def dedupGo : List TypeRec → List (List Char × TypeRec) → List (List Char × TypeRec)
  | [], best => best
  | r :: rest, best =>
      match mapLookup best (typeKey r) with
      | none => dedupGo rest (mapSet best (typeKey r) r)
      | some existing => dedupGo rest (mapSet best (typeKey r) (mergeDup existing r))

/-- Embedding of `dedupTypes(results)` from `scoring.js`: deduplicate by
`(name, kind)` keeping the better-scored record, then sort the kept
records by score, descending (JS `sort` is stable). -/
def dedupTypes (results : List TypeRec) : List TypeRec :=
  sortByDesc scoreEntry ((dedupGo results []).map Prod.snd)

theorem suffix_cpp_not_h {p : List Char}
    (hc : (sc ".cpp").isSuffixOf p = true) (hh : (sc ".h").isSuffixOf p = true) : False := by
  have hc2 : sc ".cpp" <:+ p := List.isSuffixOf_iff_suffix.mp hc
  have hh2 : sc ".h" <:+ p := List.isSuffixOf_iff_suffix.mp hh
  have hcr : (sc ".cpp").reverse <+: p.reverse := List.reverse_prefix.mpr hc2
  have hhr : (sc ".h").reverse <+: p.reverse := List.reverse_prefix.mpr hh2
  have hlen : (sc ".h").reverse.length ≤ (sc ".cpp").reverse.length := by decide
  rcases List.prefix_of_prefix_length_le hhr hcr hlen with ⟨t, ht⟩
  simp [sc] at ht

theorem path_ne_nil_of_isSuffixOf {s p : List Char}
    (hs : s.isSuffixOf p = true) (h0 : s ≠ []) : p ≠ [] := by
  have h := List.isSuffixOf_iff_suffix.mp hs
  have hl := h.length_le
  intro hp
  rw [hp] at hl
  simp at hl
  exact h0 hl

theorem normSlash_ne_nil {p : List Char} (h : p ≠ []) : normSlash p ≠ [] := by
  unfold normSlash
  intro h2
  exact h (List.map_eq_nil_iff.mp h2)

theorem pathSignal_nonneg (p : List Char) : 0 ≤ pathSignal p := by
  unfold pathSignal
  have h3 : (0 : ℚ) ≤ max 0 (1/2 - (p.length : ℚ) * (1/250)) := le_max_left _ _
  split_ifs <;> linarith

theorem pathSignal_lt_four {p : List Char} (h : p ≠ []) : pathSignal p < 4 := by
  unfold pathSignal
  have hlen : 1 ≤ p.length := List.length_pos.mpr h
  have hq : (1 : ℚ) ≤ (p.length : ℚ) := by exact_mod_cast hlen
  have hmul : (1 : ℚ) * (1/250) ≤ (p.length : ℚ) * (1/250) :=
    mul_le_mul_of_nonneg_right hq (by norm_num)
  have h3 : max 0 (1/2 - (p.length : ℚ) * (1/250)) < 1/2 := by
    apply max_lt (by norm_num)
    linarith
  split_ifs <;> linarith

theorem mem_insertScoredDesc {α : Type} (f : α → ℚ) (x z : α) (l : List α) :
    z ∈ insertScoredDesc f x l ↔ z = x ∨ z ∈ l := by
  induction l with
  | nil => simp [insertScoredDesc]
  | cons y ys ih =>
    unfold insertScoredDesc
    split_ifs
    · simp only [List.mem_cons, ih]
      tauto
    · simp only [List.mem_cons]

theorem insertScoredDesc_pairwise {α : Type} (f : α → ℚ) (x : α) (l : List α)
    (h : l.Pairwise (fun a b => f b ≤ f a)) :
    (insertScoredDesc f x l).Pairwise (fun a b => f b ≤ f a) := by
  induction l with
  | nil => simp [insertScoredDesc]
  | cons y ys ih =>
    rcases List.pairwise_cons.mp h with ⟨hy, hys⟩
    unfold insertScoredDesc
    split_ifs with hxy
    · refine List.pairwise_cons.mpr ⟨?_, ih hys⟩
      intro z hz
      rcases (mem_insertScoredDesc f x z ys).mp hz with rfl | hz2
      · exact hxy
      · exact hy z hz2
    · refine List.pairwise_cons.mpr ⟨?_, h⟩
      intro z hz
      rcases List.mem_cons.mp hz with rfl | hz2
      · exact le_of_lt (not_le.mp hxy)
      · exact le_trans (hy z hz2) (le_of_lt (not_le.mp hxy))

theorem sortByDesc_pairwise {α : Type} (f : α → ℚ) (l : List α) :
    (sortByDesc f l).Pairwise (fun a b => f b ≤ f a) := by
  suffices h : ∀ acc : List α, acc.Pairwise (fun a b => f b ≤ f a) →
      (l.foldl (fun acc x => insertScoredDesc f x acc) acc).Pairwise (fun a b => f b ≤ f a) by
    exact h [] (List.Pairwise.nil)
  induction l with
  | nil => intro acc hacc; exact hacc
  | cons x xs ih =>
    intro acc hacc
    exact ih _ (insertScoredDesc_pairwise f x acc hacc)

/-- C5 (amended). Header-over-implementation policy of `dedupTypes`:
(1) a record whose path ends in `.cpp` can never have the same score as
one whose path ends in `.h` (the header bonus of 5 cannot be offset, so
the claimed property holds vacuously for `.h`) — but the header check of
`scoreEntry` is `endsWith('.h')` only, so `.hpp`/`.hxx` receive no
bonus and an equal-scored `.cpp` record can precede them (see the
counterexample); (2) the output is sorted by `scoreEntry`, descending;
(3) when a duplicate loses to a kept record and the loser's path ends in
`.cpp`, the loser's path is attached to the kept record as
`implementationPath` — in both directions of the score comparison. -/
theorem dedupTypes_header_policy :
    (∀ a b : TypeRec, (sc ".cpp").isSuffixOf a.path = true →
        (sc ".h").isSuffixOf b.path = true → scoreEntry a ≠ scoreEntry b)
    ∧ (∀ rs : List TypeRec,
        (dedupTypes rs).Pairwise (fun x y => scoreEntry y ≤ scoreEntry x))
    ∧ (∀ existing r : TypeRec,
        (scoreEntry existing < scoreEntry r → existing.path ≠ [] →
          (sc ".cpp").isSuffixOf existing.path = true →
            mergeDup existing r = { r with implementationPath := some existing.path })
        ∧ (scoreEntry r ≤ scoreEntry existing → r.path ≠ [] →
            (sc ".cpp").isSuffixOf r.path = true →
              mergeDup existing r = { existing with implementationPath := some r.path })) := by
  refine ⟨?_, ?_, ?_⟩
  · intro a b hcpp hh heq
    have ha_ne : a.path ≠ [] := path_ne_nil_of_isSuffixOf hcpp (by decide)
    have hb_ne : b.path ≠ [] := path_ne_nil_of_isSuffixOf hh (by decide)
    have e5a : (if a.path ≠ [] ∧ (sc ".h").isSuffixOf a.path = true then (5 : ℚ) else 0) = 0 := by
      rw [if_neg]
      rintro ⟨_, h2⟩
      exact suffix_cpp_not_h hcpp h2
    have e5b : (if b.path ≠ [] ∧ (sc ".h").isSuffixOf b.path = true then (5 : ℚ) else 0) = 5 :=
      if_pos ⟨hb_ne, hh⟩
    unfold scoreEntry at heq
    rw [e5a, e5b, if_pos ha_ne, if_pos hb_ne] at heq
    have bA0 := pathSignal_nonneg (normSlash a.path)
    have bA4 := pathSignal_lt_four (normSlash_ne_nil ha_ne)
    have bB0 := pathSignal_nonneg (normSlash b.path)
    have bB4 := pathSignal_lt_four (normSlash_ne_nil hb_ne)
    split_ifs at heq <;> linarith
  · intro rs
    exact sortByDesc_pairwise scoreEntry _
  · intro existing r
    constructor
    · intro hlt hne hsuf
      unfold mergeDup
      rw [if_pos hlt, if_pos ⟨hne, hsuf⟩]
    · intro hle hne hsuf
      unfold mergeDup
      rw [if_neg (not_lt.mpr hle), if_pos ⟨hne, hsuf⟩]

/-- A `.cpp` record with no parent and a bare five-character path. -/
def cppRecord : TypeRec := ⟨sc "A", sc "class", sc "X.cpp", [], none⟩

/-- A `.hpp` record with no parent and a bare five-character path. -/
def hppRecord : TypeRec := ⟨sc "B", sc "class", sc "Y.hpp", [], none⟩

/-- A `.h` record with no parent and a bare three-character path. -/
def hRecord : TypeRec := ⟨sc "C", sc "class", sc "Z.h", [], none⟩

theorem pathSignal_plain (p : List Char) (hlen : p.length = 5)
    (h1 : containsSub p (sc "/Runtime/") = false)
    (h2 : containsSub p (sc "/Developer/") = false)
    (h3 : containsSub p (sc "/Public/") = false)
    (h4 : containsSub p (sc "/Classes/") = false)
    (h5 : containsSub p (sc "/Private/") = false) :
    pathSignal p = max 0 (1/2 - (5 : ℚ) * (1/250)) := by
  unfold pathSignal
  rw [h1, h2, h3, h4, h5, hlen]
  norm_num

theorem scoreEntry_cppRecord : scoreEntry cppRecord = max 0 (1/2 - (5 : ℚ) * (1/250)) := by
  unfold scoreEntry
  rw [if_neg (by decide), if_neg (by decide), if_pos (by decide)]
  rw [pathSignal_plain _ (by decide) (by decide) (by decide) (by decide) (by decide) (by decide)]
  norm_num

theorem scoreEntry_hppRecord : scoreEntry hppRecord = max 0 (1/2 - (5 : ℚ) * (1/250)) := by
  unfold scoreEntry
  rw [if_neg (by decide), if_neg (by decide), if_pos (by decide)]
  rw [pathSignal_plain _ (by decide) (by decide) (by decide) (by decide) (by decide) (by decide)]
  norm_num

/-- Witness for C5: the no-tie part applied to concrete `.cpp` and `.h`
records, and the attachment part applied to a record losing a tie
against itself (ties keep the existing record). -/
theorem dedupTypes_header_policy_witness :
    scoreEntry cppRecord ≠ scoreEntry hRecord
    ∧ mergeDup cppRecord cppRecord
        = { cppRecord with implementationPath := some cppRecord.path } :=
  ⟨dedupTypes_header_policy.1 cppRecord hRecord (by decide) (by decide),
   (dedupTypes_header_policy.2.2 cppRecord cppRecord).2 (le_refl _) (by decide) (by decide)⟩

/-- Counterexample for C5 as stated: the claim covers the header-like
suffixes `.h`, `.hpp`, `.hxx`, but `scoreEntry` only rewards `.h`, so a
`.cpp` record and a `.hpp` record can tie, and the stable sort then
leaves the earlier `.cpp` record in front of the equal-scored `.hpp`
record in the `dedupTypes` output. -/
theorem dedupTypes_cpp_before_hpp_counterexample :
    scoreEntry cppRecord = scoreEntry hppRecord
    ∧ (sc ".cpp").isSuffixOf cppRecord.path = true
    ∧ (sc ".hpp").isSuffixOf hppRecord.path = true
    ∧ dedupTypes [cppRecord, hppRecord] = [cppRecord, hppRecord] := by
  have heq : scoreEntry cppRecord = scoreEntry hppRecord := by
    rw [scoreEntry_cppRecord, scoreEntry_hppRecord]
  refine ⟨heq, by decide, by decide, ?_⟩
  unfold dedupTypes
  have hd : (dedupGo [cppRecord, hppRecord] []).map Prod.snd = [cppRecord, hppRecord] := by
    decide
  rw [hd]
  unfold sortByDesc
  simp only [List.foldl_cons, List.foldl_nil]
  simp only [insertScoredDesc]
  rw [if_pos heq.ge]

/-! Embedding of `findChildrenOf` from `src/src/indexer.js` (claim C9).
The JS loop `while (queue.length > 0)` with the `children` visited set is
modelled as a step function on a state of (visited list, queue); the JS
`Set` keeps insertion order, so the visited set is an append-only list
guarded by a membership test, exactly as the inner `for` loop does. -/

/-- The `parentToChildren[current] || []` lookup over an association
list. -/
def bfsLookup (g : List (String × List String)) (current : String) : List String :=
  ((g.find? (fun e => e.1 == current)).map Prod.snd).getD []

/-- The visited set (in insertion order) and the pending queue of the
`findChildrenOf` loop. -/
structure BfsState where
  visited : List String
  queue : List String

/-- The inner `for (const child of directChildren)` loop of
`findChildrenOf`: a child not yet visited is added to the visited set
and, when `recursive`, pushed on the queue. -/
def addChildren (recursive : Bool) : List String → List String × List String → List String × List String
  | [], s => s
  | c :: cs, (visited, queue) =>
      if visited.contains c then addChildren recursive cs (visited, queue)
      else addChildren recursive cs (visited ++ [c], if recursive then queue ++ [c] else queue)

/-- One iteration of the `while (queue.length > 0)` loop of
`findChildrenOf`: shift the queue head, process its children. An empty
queue is left unchanged (the loop has exited). -/
def bfsStep (g : List (String × List String)) (recursive : Bool) : BfsState → BfsState
  | ⟨visited, []⟩ => ⟨visited, []⟩
  | ⟨visited, current :: rest⟩ =>
      let s := addChildren recursive (bfsLookup g current) (visited, rest)
      ⟨s.1, s.2⟩

/-- `n` iterations of the `findChildrenOf` loop. -/
def bfsIter (g : List (String × List String)) (recursive : Bool) : Nat → BfsState → BfsState
  | 0, s => s
  | n + 1, s => bfsIter g recursive n (bfsStep g recursive s)

/-- Every child name occurring on the right-hand side of the
parent→children mapping. -/
def allChildren (g : List (String × List String)) : List String :=
  (g.map Prod.snd).flatten

/-- Termination measure for the BFS: unvisited potential children count
twice, queued names once; processing a queue head always decreases it. -/
def bfsMeasure (g : List (String × List String)) (s : BfsState) : Nat :=
  2 * ((allChildren g).toFinset \ s.visited.toFinset).card + s.queue.length

theorem bfsLookup_subset (g : List (String × List String)) (current : String) :
    ∀ c ∈ bfsLookup g current, c ∈ allChildren g := by
  intro c hc
  unfold bfsLookup at hc
  cases hf : g.find? (fun e => e.1 == current) with
  | none => rw [hf] at hc; simp at hc
  | some e =>
    rw [hf] at hc
    simp at hc
    unfold allChildren
    rw [List.mem_flatten]
    exact ⟨e.2, List.mem_map_of_mem _ (List.mem_of_find?_eq_some hf), hc⟩

theorem addChildren_measure (g : List (String × List String)) (r : Bool) :
    ∀ (cs visited queue : List String), (∀ c ∈ cs, c ∈ allChildren g) →
      2 * ((allChildren g).toFinset \ (addChildren r cs (visited, queue)).1.toFinset).card
          + (addChildren r cs (visited, queue)).2.length
        ≤ 2 * ((allChildren g).toFinset \ visited.toFinset).card + queue.length := by
  intro cs
  induction cs with
  | nil => intro visited queue _; simp [addChildren]
  | cons c cs2 ih =>
    intro visited queue hsub
    unfold addChildren
    by_cases hc : visited.contains c = true
    · rw [if_pos hc]
      exact ih visited queue (fun x hx => hsub x (List.mem_cons_of_mem _ hx))
    · rw [if_neg hc]
      refine le_trans
        (ih (visited ++ [c]) (if r then queue ++ [c] else queue)
          (fun x hx => hsub x (List.mem_cons_of_mem _ hx))) ?_
      have hcU : c ∈ (allChildren g).toFinset :=
        List.mem_toFinset.mpr (hsub c (List.mem_cons_self _ _))
      have hcV : c ∉ visited.toFinset := by
        rw [List.mem_toFinset]
        intro hmem
        exact hc (List.elem_iff.mpr hmem)
      have hmemdiff : c ∈ (allChildren g).toFinset \ visited.toFinset :=
        Finset.mem_sdiff.mpr ⟨hcU, hcV⟩
      have hins : (visited ++ [c]).toFinset = insert c visited.toFinset := by
        rw [List.toFinset_append]
        simp only [List.toFinset_cons, List.toFinset_nil, insert_emptyc_eq]
        ext x
        simp [or_comm]
      rw [hins, Finset.sdiff_insert, Finset.card_erase_of_mem hmemdiff]
      have hpos : 0 < ((allChildren g).toFinset \ visited.toFinset).card :=
        Finset.card_pos.mpr ⟨c, hmemdiff⟩
      have hqlen : (if r then queue ++ [c] else queue).length ≤ queue.length + 1 := by
        split_ifs <;> simp
      omega

theorem addChildren_nodup (r : Bool) :
    ∀ (cs visited queue : List String), visited.Nodup →
      (addChildren r cs (visited, queue)).1.Nodup := by
  intro cs
  induction cs with
  | nil => intro visited queue h; exact h
  | cons c cs2 ih =>
    intro visited queue h
    unfold addChildren
    by_cases hc : visited.contains c = true
    · rw [if_pos hc]
      exact ih visited queue h
    · rw [if_neg hc]
      refine ih _ _ ?_
      rw [List.nodup_append]
      refine ⟨h, List.nodup_singleton c, ?_⟩
      intro a ha hac
      rcases List.mem_singleton.mp hac with rfl
      exact hc (List.elem_iff.mpr ha)

theorem bfsStep_measure (g : List (String × List String)) (r : Bool) (s : BfsState)
    (h : s.queue ≠ []) : bfsMeasure g (bfsStep g r s) < bfsMeasure g s := by
  obtain ⟨visited, queue⟩ := s
  cases queue with
  | nil => exact absurd rfl h
  | cons current rest =>
    have hle := addChildren_measure g r (bfsLookup g current) visited rest
      (bfsLookup_subset g current)
    unfold bfsStep bfsMeasure
    simp only []
    have he : (current :: rest).length = rest.length + 1 := rfl
    omega

theorem bfsStep_nodup (g : List (String × List String)) (r : Bool) (s : BfsState)
    (h : s.visited.Nodup) : (bfsStep g r s).visited.Nodup := by
  obtain ⟨visited, queue⟩ := s
  cases queue with
  | nil => exact h
  | cons current rest => exact addChildren_nodup r (bfsLookup g current) visited rest h

theorem bfsStep_of_empty (g : List (String × List String)) (r : Bool) (s : BfsState)
    (h : s.queue = []) : bfsStep g r s = s := by
  obtain ⟨visited, queue⟩ := s
  cases queue with
  | nil => rfl
  | cons current rest => simp at h

theorem bfsIter_of_empty (g : List (String × List String)) (r : Bool) (k : Nat) (s : BfsState)
    (h : s.queue = []) : bfsIter g r k s = s := by
  induction k with
  | zero => rfl
  | succ k ih =>
    show bfsIter g r k (bfsStep g r s) = s
    rw [bfsStep_of_empty g r s h]
    exact ih

theorem bfsIter_add (g : List (String × List String)) (r : Bool) (a b : Nat) (s : BfsState) :
    bfsIter g r (a + b) s = bfsIter g r b (bfsIter g r a s) := by
  induction a generalizing s with
  | zero => simp [bfsIter]
  | succ a ih =>
    have h1 : a + 1 + b = (a + b) + 1 := by omega
    rw [h1]
    show bfsIter g r (a + b) (bfsStep g r s) = bfsIter g r b (bfsIter g r a (bfsStep g r s))
    exact ih (bfsStep g r s)

theorem bfs_reaches_empty (g : List (String × List String)) (r : Bool) :
    ∀ s : BfsState, s.visited.Nodup →
      ∃ n, (bfsIter g r n s).queue = [] ∧ (bfsIter g r n s).visited.Nodup := by
  suffices h : ∀ (m : Nat) (s : BfsState), bfsMeasure g s = m → s.visited.Nodup →
      ∃ n, (bfsIter g r n s).queue = [] ∧ (bfsIter g r n s).visited.Nodup by
    exact fun s hnd => h (bfsMeasure g s) s rfl hnd
  intro m
  induction m using Nat.strong_induction_on with
  | _ m ih =>
    intro s hm hnd
    by_cases hq : s.queue = []
    · exact ⟨0, hq, hnd⟩
    · obtain ⟨n, h1, h2⟩ := ih (bfsMeasure g (bfsStep g r s))
        (hm ▸ bfsStep_measure g r s hq) (bfsStep g r s) rfl (bfsStep_nodup g r s hnd)
      exact ⟨n + 1, h1, h2⟩

/-- C9. The `findChildrenOf` BFS terminates on every finite
parent→children mapping, cyclic ones included: from the initial state
(empty visited set, the queried parent queued) some number of loop
iterations empties the queue, after which further iterations change
nothing; and the visited set it builds holds each child name at most
once, because a child is enqueued only when first added to the visited
set. -/
theorem findChildrenOf_bfs_terminates (g : List (String × List String)) (parent : String)
    (recursive : Bool) :
    ∃ n, (bfsIter g recursive n ⟨[], [parent]⟩).queue = []
      ∧ (bfsIter g recursive n ⟨[], [parent]⟩).visited.Nodup
      ∧ ∀ m, n ≤ m →
          bfsIter g recursive m ⟨[], [parent]⟩ = bfsIter g recursive n ⟨[], [parent]⟩ := by
  obtain ⟨n, h1, h2⟩ := bfs_reaches_empty g recursive ⟨[], [parent]⟩ List.nodup_nil
  refine ⟨n, h1, h2, ?_⟩
  intro m hm
  obtain ⟨k, rfl⟩ := Nat.exists_eq_add_of_le hm
  rw [bfsIter_add]
  exact bfsIter_of_empty g recursive k _ h1

/-! Models of the `/batch` and `/health` service behaviour (claims C6 and
C7). The handlers themselves are not among the sources under src/ — only
their tests (`test-endpoints.mjs`), clients (`fetchBatch` in
`src/build-index.js`, the MCP bridge) and documentation (Dockerfile)
are — so they are modelled from the spec. -/

/-- Modelled from the spec: one inner query of a `/batch` request (the
server-side `/batch` handler is missing from src/). The dispatcher is "a
closed tagged union of inner-query kinds"; a query names a method and
carries opaque arguments. -/
structure BatchQuery where
  method : String
  args : List String

/-- Modelled from the spec: one entry of a `/batch` response — either a
result payload (opaque here) or an object carrying an `error` field. -/
inductive BatchEntry where
  | ok (value : String)
  | err (message : String)
deriving DecidableEq

/-- Modelled from the spec: the dispatch table of valid inner-query
methods, as exercised by the repository's tests. -/
def batchMethods : List String := ["findTypeByName", "findMember", "findFileByName"]

/-- Modelled from the spec: the `/batch` handler (missing from src/).
Spec §4.H: "up to 10 inner queries executed in sequence; each result
individually errored on invalid method"; §8 scenario 4: 11 inner
queries → 400, 0 inner queries → 400. `exec` abstracts the per-query
evaluation against the index. -/
def runBatch (exec : BatchQuery → String) (queries : List BatchQuery) :
    Except Nat (List BatchEntry) :=
  if queries.length = 0 then .error 400
  else if 10 < queries.length then .error 400
  else .ok (queries.map (fun q =>
    if batchMethods.contains q.method then .ok (exec q) else .err "unknown method"))

/-- C6. Batch limits and isolation: an empty batch and a batch of more
than ten inner queries are rejected with 400; an accepted batch yields
exactly one entry per inner query, at the query's position, and that
entry depends only on the query itself (an `error` entry for an invalid
method, the executed result otherwise) — so an invalid method cannot
affect sibling results. The claim's 2-valid + 1-invalid scenario is
included literally. -/
theorem batch_limits_and_isolation :
    (∀ (exec : BatchQuery → String) (qs : List BatchQuery),
        qs.length = 0 → runBatch exec qs = .error 400)
    ∧ (∀ (exec : BatchQuery → String) (qs : List BatchQuery),
        10 < qs.length → runBatch exec qs = .error 400)
    ∧ (∀ (exec : BatchQuery → String) (qs1 qs2 : List BatchQuery) (q : BatchQuery),
        (qs1 ++ q :: qs2).length ≤ 10 →
          ∃ rs, runBatch exec (qs1 ++ q :: qs2) = .ok rs
            ∧ rs.length = (qs1 ++ q :: qs2).length
            ∧ rs[qs1.length]? = some (if batchMethods.contains q.method then
                .ok (exec q) else .err "unknown method"))
    ∧ (∀ (exec : BatchQuery → String) (a1 a2 a3 : List String),
        runBatch exec [⟨"findTypeByName", a1⟩, ⟨"invalidMethod", a2⟩, ⟨"findMember", a3⟩]
          = .ok [.ok (exec ⟨"findTypeByName", a1⟩), .err "unknown method",
              .ok (exec ⟨"findMember", a3⟩)]) := by
  refine ⟨?_, ?_, ?_, ?_⟩
  · intro exec qs h
    unfold runBatch
    rw [if_pos h]
  · intro exec qs h
    unfold runBatch
    rw [if_neg (by omega), if_pos h]
  · intro exec qs1 qs2 q hlen
    refine ⟨(qs1 ++ q :: qs2).map (fun q =>
      if batchMethods.contains q.method then .ok (exec q) else .err "unknown method"),
      ?_, by simp, ?_⟩
    · unfold runBatch
      rw [if_neg (by simp), if_neg (by omega)]
    · rw [List.map_append, List.map_cons]
      rw [List.getElem?_append_right (by simp)]
      simp
  · intro exec a1 a2 a3
    unfold runBatch
    rw [if_neg (by simp), if_neg (by simp)]
    rfl

/-- Witness for C6: a batch of eleven queries and the empty batch are
both rejected with 400. -/
theorem batch_limits_and_isolation_witness :
    10 < (List.replicate 11 (⟨"findTypeByName", []⟩ : BatchQuery)).length
    ∧ runBatch (fun _ => "r") (List.replicate 11 ⟨"findTypeByName", []⟩) = .error 400
    ∧ runBatch (fun _ => "r") [] = .error 400 :=
  ⟨by simp,
   batch_limits_and_isolation.2.1 (fun _ => "r") _ (by simp),
   batch_limits_and_isolation.1 (fun _ => "r") [] rfl⟩

/-- Modelled from the spec: the `/health` response body of the
memory-index-aware service (missing from src/ — `test-endpoints.mjs`
reads `data.memoryIndex.loaded` and the Dockerfile documents it;
the `api.js` under src/ is an earlier generation without a memory
index). Only the fields claim C7 concerns are modelled;
`memoryIndexLoaded` stands for the nested `memoryIndex.loaded`. -/
structure HealthBody where
  status : String
  memoryIndexLoaded : Bool
deriving DecidableEq

/-- Modelled from the spec: a query-endpoint reply — results plus the
`hints` array. -/
structure QueryReply where
  results : List String
  hints : List String
deriving DecidableEq

/-- Modelled from the spec: the `/health` handler always reports the
memory-index readiness flag. -/
def healthResponse (loaded : Bool) : HealthBody := ⟨"ok", loaded⟩

/-- Modelled from the spec (§7): "Memory index not yet loaded → `/health`
reports `memoryIndex.loaded: false` and query endpoints return empty
results with hints `index still loading`". `run` abstracts the actual
query evaluation used once the index is loaded. -/
def queryEndpoint (loaded : Bool) (run : Unit → List String) : QueryReply :=
  if loaded then ⟨run (), []⟩ else ⟨[], ["index still loading"]⟩

/-- C7. Health reporting of index readiness: the `/health` body always
carries the memory-index readiness field and it reflects the state;
while the index is not loaded, every query endpoint answers with empty
results and the single hint `index still loading`. -/
theorem health_reports_index_loading :
    (∀ loaded : Bool, (healthResponse loaded).memoryIndexLoaded = loaded)
    ∧ (∀ run : Unit → List String,
        queryEndpoint false run = ⟨[], ["index still loading"]⟩)
    ∧ (healthResponse false).memoryIndexLoaded = false :=
  ⟨fun _ => rfl, fun _ => rfl, rfl⟩

end UnrealIndex
